import Mathlib

/-!
Verification of the incremental RFC-document indexing pipeline.

The development shallowly embeds the pipeline of this repository:
`src/rag/utils.py` (document discovery, file signatures, the metadata
store and the change detector), `src/rag/index.py` (the FAISS index
manager), and `src/chains/rfc_chain.py` (the orchestrator `RFCChain`).

Python's mutable sqlite table is embedded as an explicit list of rows
passed through every operation; exceptions become `Except`/`Option`
results or explicit abort states; the filesystem is an explicit list of
file entries; provider calls (embedding, index persistence) are
abstracted by injected success predicates, and the calls actually made
are recorded in an event trace so that claims about "which calls happen
and in which order" are statable.
-/

namespace RFCAgent

/-! ## Chunker

Modelled from the spec: `split_text` in `src/rag/utils.py` delegates the
actual splitting to `langchain`'s `RecursiveCharacterTextSplitter`,
whose implementation is not part of this repository's sources.  The
recursive-mode splitter is therefore modelled from the specification's
chunker contract (sections 4.4 and 8): a priority list of separators,
chunks of at most `chunkSize` characters, the highest-priority separator
position inside the current window chosen as the break point with the
empty-string separator as the forced character-level fallback, and
exactly `chunkOverlap` characters of the end of each chunk duplicated at
the start of the following chunk (no trailing overlap after the final
chunk); `chunk_overlap ≥ chunk_size` is rejected as a configuration
error before any splitting happens. -/

inductive ConfigError
  | overlapTooLarge
deriving DecidableEq

/-- The default separator priority list of `split_text`:
paragraph break, line break, sentence terminator plus space, space,
and the character-level fallback. -/
def defaultSeparators : List (List Char) :=
  [['\n', '\n'], ['\n'], ['.', ' '], [' '], []]

/-- The substring of `t` from position `a` (inclusive) to `b` (exclusive). -/
def slice (t : List Char) (a b : Nat) : List Char :=
  (t.drop a).take (b - a)

/-- Largest position `p` with `minPos < p ≤ bound` such that `sep` ends
exactly at `p` inside `window`; `none` if there is no such break point. -/
def lastBreakAux (sep : List Char) (window : List Char) (minPos : Nat) :
    Nat → Option Nat
  | 0 => none
  | p + 1 =>
    if minPos < p + 1 ∧ sep.isSuffixOf (window.take (p + 1)) = true then
      some (p + 1)
    else lastBreakAux sep window minPos p

/-- Break position for the current window: the first separator in the
priority list that admits a break strictly beyond the overlap region
wins; the empty separator (and an exhausted list) forces a break at
`maxPos`, the full chunk size. -/
def chooseEnd (seps : List (List Char)) (window : List Char)
    (minPos maxPos : Nat) : Nat :=
  match seps with
  | [] => maxPos
  | s :: rest =>
    if s = [] then maxPos
    else
      match lastBreakAux s window minPos maxPos with
      | some p => p
      | none => chooseEnd rest window minPos maxPos

/-- One chunk per iteration: if the rest of the text fits in one chunk it
becomes the final chunk, otherwise the window of `chunkSize` characters
at the current position is cut at the separator-chosen break point and
the next chunk starts `chunkOverlap` characters earlier than the cut. -/
def splitRecAux (seps : List (List Char)) (chunkSize chunkOverlap : Nat)
    (text : List Char) : Nat → Nat → List (List Char)
  | 0, _ => []
  | fuel + 1, pos =>
    if text.length ≤ pos + chunkSize then
      [slice text pos text.length]
    else
      let e := pos + chooseEnd seps (slice text pos (pos + chunkSize))
        chunkOverlap chunkSize
      slice text pos e ::
        splitRecAux seps chunkSize chunkOverlap text fuel (e - chunkOverlap)

/-- Recursive-mode splitting of a character list; empty input yields an
empty chunk sequence. -/
def splitTextChars (text : List Char) (chunkSize chunkOverlap : Nat)
    (seps : List (List Char)) : List (List Char) :=
  if text = [] then []
  else splitRecAux seps chunkSize chunkOverlap text text.length 0

/-- `split_text` of `src/rag/utils.py` (recursive mode), with the
configuration check of the chunker contract applied before splitting. -/
def split_text (text : String) (chunkSize chunkOverlap : Nat)
    (seps : List (List Char)) : Except ConfigError (List String) :=
  if chunkSize ≤ chunkOverlap then .error .overlapTooLarge
  else .ok ((splitTextChars text.data chunkSize chunkOverlap seps).map
    (fun cs => String.mk cs))

/-- Concatenation of a chunk sequence after removing the `chunkOverlap`
character prefix from every chunk after the first. -/
def reconstructOverlap (chunkOverlap : Nat) : List (List Char) → List Char
  | [] => []
  | c :: cs => c ++ (cs.map (List.drop chunkOverlap)).flatten

/-! ## Filesystem, documents and discovery (`get_doc_from_path`) -/

/-- One directory entry, as the pipeline observes it: base name split
into stem and extension, full text content, modification time, and
whether reading the file succeeds (an unreadable file models the
`except` branch of `get_doc_from_path`). -/
structure PyFile where
  stem : String
  ext : String
  content : String
  mtime : Nat
  readable : Bool
deriving DecidableEq

/-- A langchain `Document`: page content plus the `source` metadata
entry, which is the only metadata key the pipeline uses. -/
structure Doc where
  page_content : String
  source : String
deriving DecidableEq

/-- The `Document` built by `get_doc_from_path` for one file: full
content, `source` set to the filename without its extension. -/
def mkDoc (f : PyFile) : Doc :=
  ⟨f.content, f.stem⟩

/-- `get_doc_from_path` of `src/rag/utils.py`: iterate the files of the
folder matching `*.txt`, read each one, skip a file whose read raises,
and return one `Document` per successfully read file. -/
def get_doc_from_path (files : List PyFile) : List Doc :=
  (files.filter (fun f => decide (f.ext = "txt"))).filterMap
    (fun f => if f.readable then some (mkDoc f) else none)

/-- Lookup of the `.txt` file with the given stem in the folder, used
whenever the chain rebuilds a file path as `source + ".txt"`. -/
def findTxt (files : List PyFile) (s : String) : Option PyFile :=
  files.find? (fun f => decide (f.stem = s ∧ f.ext = "txt"))

/-! ## File signatures and the metadata store (`src/rag/utils.py`) -/

/-- `get_file_signature`: base filename, content hash and modification
time.  The SHA-256 digest is abstracted as an arbitrary function of the
content (`hashFn`), which every theorem quantifies over. -/
structure FileSig where
  filename : String
  hash : Nat
  last_modified : Nat
deriving DecidableEq

def get_file_signature (hashFn : String → Nat) (f : PyFile) : FileSig :=
  ⟨f.stem ++ "." ++ f.ext, hashFn f.content, f.mtime⟩

/-- One row of the `documents` table created by `init_database`
(the autoincrement surrogate id is irrelevant to every claim and
omitted). -/
structure DocRow where
  filename : String
  file_hash : Nat
  chunk_count : Nat
  last_modified : Nat
  processed_time : Nat
deriving DecidableEq

/-- `SELECT ... FROM documents WHERE filename = ?` followed by
`fetchone()`: the first row with the given filename. -/
def lookupRow (db : List DocRow) (fn : String) : Option DocRow :=
  db.find? (fun r => decide (r.filename = fn))

/-- The row inserted by `_update_document_record` when no row for the
filename exists; `processed_time` takes the schema default
`CURRENT_TIMESTAMP`, i.e. the current instant `now`. -/
def mkRow (sig : FileSig) (chunkCount now : Nat) : DocRow :=
  ⟨sig.filename, sig.hash, chunkCount, sig.last_modified, now⟩

/-- Effect of the `UPDATE documents SET ... WHERE filename = ?`
statement on one row. -/
def updateRowWith (sig : FileSig) (chunkCount now : Nat) (r : DocRow) :
    DocRow :=
  if r.filename = sig.filename then
    ⟨r.filename, sig.hash, chunkCount, sig.last_modified, now⟩
  else r

/-- The metadata upsert of `RFCChain._update_document_record`: check
whether a row for the filename exists, update it in place if so,
otherwise insert a fresh row. -/
def update_document_record (db : List DocRow) (sig : FileSig)
    (chunkCount now : Nat) : List DocRow :=
  if (lookupRow db sig.filename).isSome then
    db.map (updateRowWith sig chunkCount now)
  else db ++ [mkRow sig chunkCount now]

/-- Number of rows holding the given filename. -/
def countRows (db : List DocRow) (fn : String) : Nat :=
  (db.filter (fun r => decide (r.filename = fn))).length

/-- The table invariant backed by the `filename TEXT UNIQUE` constraint
of `init_database`: no two rows share a filename. -/
def dbInv (db : List DocRow) : Prop :=
  (db.map (fun r => r.filename)).Nodup

/-- A sequence of upsert calls, each with its signature, chunk count and
call instant, applied in order. -/
def applyUpserts (db : List DocRow) :
    List (FileSig × Nat × Nat) → List DocRow
  | [] => db
  | (sig, cc, now) :: rest =>
    applyUpserts (update_document_record db sig cc now) rest

/-- `needs_processing` of `src/rag/utils.py`: compute the current file
signature, fetch the stored row by filename, and report `true` for a
missing row or any mismatch of hash or modification time.  The second
component is the store after the call; the function only reads, so it
returns the store unchanged. -/
def needs_processing (hashFn : String → Nat) (db : List DocRow)
    (f : PyFile) : Bool × List DocRow :=
  let sig := get_file_signature hashFn f
  match lookupRow db sig.filename with
  | none => (true, db)
  | some row =>
    (!(decide (row.file_hash = sig.hash) &&
        decide (row.last_modified = sig.last_modified)), db)

/-! ## Index builder (`FAISSIndexManager`, `src/rag/index.py`) -/

/-- `FAISS.from_embeddings`: pair each (text, vector) with its metadata
entry by position.  The vector and metadata payloads are opaque type
parameters. -/
def faissFromEmbeddings {V M : Type} (pairs : List (String × V))
    (metadatas : Option (List M)) : List (String × V × Option M) :=
  match metadatas with
  | none => pairs.map (fun p => (p.1, p.2, (none : Option M)))
  | some ms => pairs.zipWith (fun p m => (p.1, p.2, some m)) ms

/-- `FAISSIndexManager.create_from_texts`: one `embed_documents` call on
the full batch, the returned vectors zipped with the input texts, and
the index built from those pairs plus the metadata list.  The second
component is the log of embedder invocations actually made. -/
def create_from_texts {V M : Type} (embed : List String → List V)
    (texts : List String) (metadatas : Option (List M)) :
    List (String × V × Option M) × List (List String) :=
  let embeddings := embed texts
  let pairs := texts.zip embeddings
  (faissFromEmbeddings pairs metadatas, [texts])

/-- `FAISSIndexManager.create_from_documents`: project page contents and
metadata out of the documents and defer to `create_from_texts`. -/
def create_from_documents {V : Type} (embed : List String → List V)
    (docs : List Doc) : List (String × V × Option String) × List (List String) :=
  create_from_texts embed (docs.map (fun d => d.page_content))
    (some (docs.map (fun d => d.source)))

/-! ## `check_document_exists` (`src/rag/index.py`) -/

/-- A Python exception relevant to `check_document_exists`; every
constructor is a subclass of `Exception` and hence caught by the
method's blanket handler. -/
inductive PyExc
  | nameError (n : String)
deriving DecidableEq

/-- The module-level names bound by the import statements of
`src/rag/index.py`: the `typing` names, `FAISS`, `Document` and
`BaseEmbedding`.  The name `os` is not among them. -/
def indexModuleNames : List String :=
  ["List", "Optional", "Dict", "Any", "Union", "FAISS", "Document",
    "BaseEmbedding"]

/-- The `try` body of `check_document_exists`: it first evaluates
`os.path.exists(index_path)`, which resolves the module-level name `os`
and raises `NameError` when that name is unbound.  The remainder of the
body (loading the index and scanning document metadata for `doc_name`)
is abstracted by the `indexExists` and `docSources` parameters, since it
is unreachable whenever the name lookup fails. -/
def check_document_exists_body (env : List String) (indexExists : Bool)
    (docSources : List String) (docName : String) : Except PyExc Bool :=
  if "os" ∈ env then
    if indexExists then
      .ok (docSources.any (fun s => decide (s = docName)))
    else .ok false
  else .error (.nameError "os")

/-- `FAISSIndexManager.check_document_exists`: the body runs under the
module environment of `src/rag/index.py`, and the `except Exception`
handler converts any raised exception into the return value `False`. -/
def check_document_exists (indexExists : Bool) (docSources : List String)
    (docName : String) : Bool :=
  match check_document_exists_body indexModuleNames indexExists docSources
      docName with
  | .ok b => b
  | .error _ => false

/-! ## Pipeline orchestrator (`RFCChain`, `src/chains/rfc_chain.py`) -/

/-- Externally visible pipeline actions, in the order the run performs
them: one chunking pass over the documents selected for processing, one
embedding call per source group (recorded when the provider call
succeeds), one index save per source group (recorded when persistence
succeeds), and one metadata upsert per committed source. -/
inductive Ev
  | chunk (sources : List String)
  | embed (texts : List String)
  | save (source : String)
  | upsertEv (filename : String)
deriving DecidableEq

/-- The exception that terminated a run, if any: an invalid chunk
configuration, a source file missing when its signature or change status
is computed, an embedding provider failure, or an index persistence
failure. -/
inductive RunErr
  | config
  | missingFile (source : String)
  | embedFail (source : String)
  | saveFail (source : String)
deriving DecidableEq

/-- Outcome of `RFCChain.process`: the metadata store after the run, the
trace of performed actions, and the propagated exception when the run
aborted (`none` when it ran to completion). -/
structure RunOut where
  db : List DocRow
  events : List Ev
  error : Option RunErr
deriving DecidableEq

/-- Grouping step of `_vectorize_and_store`: a Python dict keyed by
`source` in insertion order, each group listing its chunks in input
order. -/
def addDoc (acc : List (String × List Doc)) (d : Doc) :
    List (String × List Doc) :=
  if acc.any (fun p => decide (p.1 = d.source)) then
    acc.map (fun p => if p.1 = d.source then (p.1, p.2 ++ [d]) else p)
  else acc ++ [(d.source, [d])]

def groupBySource (docs : List Doc) : List (String × List Doc) :=
  docs.foldl addDoc []

/-- `_chunk_documents` / `split_documents`: split every selected
document and concatenate the chunk lists, each chunk inheriting its
parent's metadata. -/
def split_documents (chunkSize chunkOverlap : Nat) (docs : List Doc) :
    Except ConfigError (List Doc) :=
  if chunkSize ≤ chunkOverlap then .error .overlapTooLarge
  else .ok ((docs.map (fun d =>
    (splitTextChars d.page_content.data chunkSize chunkOverlap
        defaultSeparators).map
      (fun cs => Doc.mk (String.mk cs) d.source))).flatten)

/-- `_filter_unprocessed_documents`: documents with a falsy `source` are
skipped; for the rest the chain recomputes the path `source + ".txt"`
and asks `needs_processing`, which raises `FileNotFoundError` (an
uncaught run-aborting exception) when that file is absent. -/
def filterUnprocessed (hashFn : String → Nat) (files : List PyFile)
    (db : List DocRow) : List Doc → Except RunErr (List Doc)
  | [] => .ok []
  | d :: rest =>
    if d.source = "" then filterUnprocessed hashFn files db rest
    else
      match findTxt files d.source with
      | none => .error (.missingFile d.source)
      | some f =>
        match filterUnprocessed hashFn files db rest with
        | .error e => .error e
        | .ok tail =>
          .ok (if (needs_processing hashFn db f).1 then d :: tail else tail)

/-- The per-source loop of `_vectorize_and_store`: embed the group
(`create_from_documents`), save the index, then upsert the metadata row
from the file's current signature.  The loop body has no exception
handler, so the first failing step terminates the whole loop with the
raised exception; `embedOk` and `saveOk` inject provider/persistence
failures per source. -/
def vectorizeAndStore (embedOk saveOk : String → Bool)
    (hashFn : String → Nat) (now : Nat) (files : List PyFile) :
    List (String × List Doc) → List DocRow → List Ev → RunOut
  | [], db, evs => ⟨db, evs, none⟩
  | (s, docs) :: rest, db, evs =>
    if embedOk s then
      let evs1 := evs ++ [Ev.embed (docs.map (fun d => d.page_content))]
      if saveOk s then
        let evs2 := evs1 ++ [Ev.save s]
        match findTxt files s with
        | none => ⟨db, evs2, some (.missingFile s)⟩
        | some f =>
          let sig := get_file_signature hashFn f
          vectorizeAndStore embedOk saveOk hashFn now files rest
            (update_document_record db sig docs.length now)
            (evs2 ++ [Ev.upsertEv sig.filename])
      else ⟨db, evs1, some (.saveFail s)⟩
    else ⟨db, evs, some (.embedFail s)⟩

/-- `RFCChain.process`: discover documents, return at once when none are
found or none need processing, otherwise chunk the selected documents,
group the chunks by source, and run the vectorize-and-store loop. -/
def processRun (embedOk saveOk : String → Bool) (hashFn : String → Nat)
    (now chunkSize chunkOverlap : Nat) (files : List PyFile)
    (db : List DocRow) : RunOut :=
  let allDocs := get_doc_from_path files
  if allDocs = [] then ⟨db, [], none⟩
  else
    match filterUnprocessed hashFn files db allDocs with
    | .error e => ⟨db, [], some e⟩
    | .ok toProc =>
      if toProc = [] then ⟨db, [], none⟩
      else
        match split_documents chunkSize chunkOverlap toProc with
        | .error _ => ⟨db, [], some .config⟩
        | .ok chunked =>
          vectorizeAndStore embedOk saveOk hashFn now files
            (groupBySource chunked) db
            [Ev.chunk (toProc.map (fun d => d.source))]

/-- The selection criterion applied by `_filter_unprocessed_documents`
to one discovered document: a truthy `source` whose backing `.txt` file
exists and currently needs processing. -/
def needsPred (hashFn : String → Nat) (files : List PyFile)
    (db : List DocRow) (d : Doc) : Bool :=
  decide (d.source ≠ "") &&
    (match findTxt files d.source with
     | some f => (needs_processing hashFn db f).1
     | none => false)

/-- Filenames are unique inside one directory: the stems of its `.txt`
entries are pairwise distinct. -/
def stemsNodup (files : List PyFile) : Prop :=
  ((files.filter (fun f => decide (f.ext = "txt"))).map
    (fun f => f.stem)).Nodup

/-- Two-document directory used to exercise a persistence failure on the
first source. -/
def filesAB : List PyFile :=
  [⟨"a", "txt", "aaa", 1, true⟩, ⟨"b", "txt", "bbb", 2, true⟩]

/-- Persistence succeeds for every source except `"a"`. -/
def saveFailsOnA : String → Bool := fun s => !(decide (s = "a"))

/-- The run over `filesAB` from an empty store in which saving the index
of source `"a"` raises. -/
def runAB : RunOut :=
  processRun (fun _ => true) saveFailsOnA (fun c => c.length) 9 1000 200
    filesAB []

/-- One-document directory whose single file is empty. -/
def filesEmptyDoc : List PyFile :=
  [⟨"rfc1", "txt", "", 5, true⟩]

/-- First run over `filesEmptyDoc` from an empty store, every provider
call succeeding. -/
def runEmpty1 : RunOut :=
  processRun (fun _ => true) (fun _ => true) (fun c => c.length) 7 1000 200
    filesEmptyDoc []

/-- Immediately repeated run over the unchanged `filesEmptyDoc`. -/
def runEmpty2 : RunOut :=
  processRun (fun _ => true) (fun _ => true) (fun c => c.length) 8 1000 200
    filesEmptyDoc runEmpty1.db

/-! ## General list helpers -/

theorem zipWith_getElem_some {α β γ : Type} (f : α → β → γ) :
    ∀ (l1 : List α) (l2 : List β) (i : Nat) (a : α) (b : β),
      l1[i]? = some a → l2[i]? = some b →
      (List.zipWith f l1 l2)[i]? = some (f a b) := by
  intro l1
  induction l1 with
  | nil => intro l2 i a b h; simp at h
  | cons x xs ih =>
    intro l2 i a b h1 h2
    cases l2 with
    | nil => simp at h2
    | cons y ys =>
      cases i with
      | zero => simp_all
      | succ j => simpa using ih ys j a b (by simpa using h1) (by simpa using h2)

theorem filter_eq_single_of_nodup {α : Type} [DecidableEq α] :
    ∀ (l : List α) (a : α), l.Nodup → a ∈ l →
      (l.filter (fun x => decide (x = a))).length = 1 := by
  intro l
  induction l with
  | nil => intro a _ hmem; simp at hmem
  | cons x xs ih =>
    intro a hnd hmem
    rcases List.nodup_cons.mp hnd with ⟨hx, hxs⟩
    by_cases hxa : x = a
    · subst hxa
      have hnone : xs.filter (fun y => decide (y = x)) = [] := by
        refine List.filter_eq_nil_iff.mpr ?_
        intro y hy
        simp only [decide_eq_true_eq]
        intro heq; exact hx (heq ▸ hy)
      simp [List.filter_cons, hnone]
    · have hmem2 : a ∈ xs := by
        rcases List.mem_cons.mp hmem with h | h
        · exact absurd h.symm hxa
        · exact h
      simpa [List.filter_cons, hxa] using ih a hxs hmem2

/-! ## Discovery lemmas -/

theorem get_doc_from_path_eq (files : List PyFile) :
    get_doc_from_path files =
      (files.filter (fun f => decide (f.ext = "txt" ∧ f.readable = true))).map
        mkDoc := by
  induction files with
  | nil => rfl
  | cons f rest ih =>
    by_cases he : f.ext = "txt"
    · cases hr : f.readable <;>
        simp [get_doc_from_path, List.filter_cons, List.filterMap_cons, he,
          hr] <;> simpa [get_doc_from_path] using ih
    · simp [get_doc_from_path, List.filter_cons, he] at ih ⊢
      exact ih

theorem get_doc_from_path_mem (files : List PyFile) (d : Doc) :
    d ∈ get_doc_from_path files ↔
      ∃ f, f ∈ files ∧ f.ext = "txt" ∧ f.readable = true ∧ d = mkDoc f := by
  rw [get_doc_from_path_eq]
  simp only [List.mem_map, List.mem_filter, decide_eq_true_eq]
  constructor
  · rintro ⟨f, ⟨hf, he, hr⟩, rfl⟩
    exact ⟨f, hf, he, hr, rfl⟩
  · rintro ⟨f, hf, he, hr, rfl⟩
    exact ⟨f, ⟨hf, he, hr⟩, rfl⟩

/-! ## Claim theorems: change detector and discovery -/

/-- C3: `needs_processing` returns `true` exactly when no row exists for
the file's name or the stored hash differs from the current content hash
or the stored modification time differs from the current modification
time; it returns `false` exactly when hash and modification time both
match the current `FileSignature`, and it leaves the store unchanged. -/
theorem needs_processing_spec (hashFn : String → Nat) (db : List DocRow)
    (f : PyFile) :
    ((needs_processing hashFn db f).1 = true ↔
      lookupRow db (get_file_signature hashFn f).filename = none
      ∨ ∃ row, lookupRow db (get_file_signature hashFn f).filename = some row
          ∧ (row.file_hash ≠ (get_file_signature hashFn f).hash
            ∨ row.last_modified ≠ (get_file_signature hashFn f).last_modified))
    ∧ ((needs_processing hashFn db f).1 = false ↔
      ∃ row, lookupRow db (get_file_signature hashFn f).filename = some row
        ∧ row.file_hash = (get_file_signature hashFn f).hash
        ∧ row.last_modified = (get_file_signature hashFn f).last_modified)
    ∧ (needs_processing hashFn db f).2 = db := by
  refine ⟨?_, ?_, ?_⟩
  · cases h : lookupRow db (get_file_signature hashFn f).filename with
    | none => simp [needs_processing, h]
    | some row =>
      by_cases h1 : row.file_hash = (get_file_signature hashFn f).hash <;>
        by_cases h2 :
          row.last_modified = (get_file_signature hashFn f).last_modified <;>
        simp [needs_processing, h, h1, h2]
  · cases h : lookupRow db (get_file_signature hashFn f).filename with
    | none => simp [needs_processing, h]
    | some row =>
      by_cases h1 : row.file_hash = (get_file_signature hashFn f).hash <;>
        by_cases h2 :
          row.last_modified = (get_file_signature hashFn f).last_modified <;>
        simp [needs_processing, h, h1, h2]
  · cases h : lookupRow db (get_file_signature hashFn f).filename <;>
      simp [needs_processing, h]

/-- C10: document discovery returns exactly one record per readable
`*.txt` file directly inside the folder, in listing order, with content
equal to the file's full text and source equal to the filename without
its extension; files with any other extension are never discovered, and
a file whose read fails is skipped while the remaining files are still
returned. -/
theorem get_doc_from_path_spec (files : List PyFile) :
    get_doc_from_path files =
      (files.filter (fun f => decide (f.ext = "txt" ∧ f.readable = true))).map
        mkDoc
    ∧ (∀ d, d ∈ get_doc_from_path files ↔
        ∃ f, f ∈ files ∧ f.ext = "txt" ∧ f.readable = true ∧ d = mkDoc f)
    ∧ ∀ f : PyFile, (mkDoc f).page_content = f.content
        ∧ (mkDoc f).source = f.stem :=
  ⟨get_doc_from_path_eq files, get_doc_from_path_mem files,
    fun f => ⟨rfl, rfl⟩⟩

/-! ## Claim theorems: index builder -/

/-- C5: `create_from_texts` calls the embedder's batch method exactly
once, with the full text list in input order, and in the constructed
index the i-th entry pairs the i-th input text with the i-th returned
vector and the i-th metadata entry. -/
theorem create_from_texts_order {V M : Type} (embed : List String → List V)
    (texts : List String) (metas : List M)
    (hemb : (embed texts).length = texts.length)
    (hm : metas.length = texts.length) :
    (create_from_texts embed texts (some metas)).2 = [texts]
    ∧ ((create_from_texts embed texts (some metas)).1).length = texts.length
    ∧ ∀ (i : Nat) (t : String) (v : V) (m : M),
        texts[i]? = some t → (embed texts)[i]? = some v →
        metas[i]? = some m →
        ((create_from_texts embed texts (some metas)).1)[i]? =
          some ((t, v, some m) : String × V × Option M) := by
  refine ⟨rfl, ?_, ?_⟩
  · simp [create_from_texts, faissFromEmbeddings, List.length_zipWith,
      List.length_zip, hemb, hm]
  · intro i t v m ht hv hmi
    have hzip : (texts.zip (embed texts))[i]? = some (t, v) := by
      simpa [List.zip] using
        zipWith_getElem_some Prod.mk texts (embed texts) i t v ht hv
    simpa [create_from_texts, faissFromEmbeddings] using
      zipWith_getElem_some (fun (p : String × V) (m : M) => (p.1, p.2, some m))
        (texts.zip (embed texts)) metas i (t, v) m hzip hmi

/-- Witness for C5 at a concrete embedder, text batch and metadata
list. -/
theorem create_from_texts_order_witness :
    ((fun ts : List String => ts.map (fun t => t.length)) ["ab", "c"]).length =
        (["ab", "c"] : List String).length
    ∧ (["m1", "m2"] : List String).length = (["ab", "c"] : List String).length
    ∧ (create_from_texts (fun ts : List String => ts.map (fun t => t.length))
        ["ab", "c"] (some ["m1", "m2"])).2 = [["ab", "c"]]
    ∧ ((create_from_texts (fun ts : List String => ts.map (fun t => t.length))
        ["ab", "c"] (some ["m1", "m2"])).1).length = 2 := by
  have h := create_from_texts_order
    (fun ts : List String => ts.map (fun t => t.length)) ["ab", "c"] ["m1", "m2"]
    (by decide) (by decide)
  exact ⟨by decide, by decide, h.1, h.2.1⟩

/-! ## Claim theorems: chunker configuration -/

/-- C6: a configuration with `chunk_overlap ≥ chunk_size` makes the
split operation fail with the configuration error, before any splitting
is performed, for text splitting and document splitting alike. -/
theorem split_config_error (text : String) (docs : List Doc)
    (chunkSize chunkOverlap : Nat) (seps : List (List Char))
    (h : chunkSize ≤ chunkOverlap) :
    split_text text chunkSize chunkOverlap seps =
        .error ConfigError.overlapTooLarge
    ∧ split_documents chunkSize chunkOverlap docs =
        .error ConfigError.overlapTooLarge := by
  constructor <;> simp [split_text, split_documents, h]

/-- Witness for C6 at a concrete overlap-at-least-size configuration. -/
theorem split_config_error_witness :
    (2 : Nat) ≤ 5
    ∧ split_text "hello" 2 5 defaultSeparators =
        .error ConfigError.overlapTooLarge
    ∧ split_documents 2 5 [Doc.mk "hello" "a"] =
        .error ConfigError.overlapTooLarge := by
  have h := split_config_error "hello" [Doc.mk "hello" "a"] 2 5
    defaultSeparators (by decide)
  exact ⟨by decide, h.1, h.2⟩

/-! ## Claim theorems: check_document_exists -/

/-- C9: for every index state and document name,
`check_document_exists` returns `False` and raises nothing: the body
references the module name `os`, which `src/rag/index.py` never
imports, so evaluation raises `NameError`, which the blanket handler
turns into `False` regardless of whether the document is present (as
the third conjunct shows, the same body under an environment that does
bind `os` would report a present document as `True`). -/
theorem check_document_exists_always_false (indexExists : Bool)
    (docSources : List String) (docName : String) :
    check_document_exists indexExists docSources docName = false
    ∧ check_document_exists_body indexModuleNames indexExists docSources
        docName = .error (.nameError "os")
    ∧ check_document_exists_body ("os" :: indexModuleNames) true [docName]
        docName = .ok true := by
  have hos : ("os" ∈ indexModuleNames) = False := by simp [indexModuleNames]
  refine ⟨?_, ?_, ?_⟩
  · simp [check_document_exists, check_document_exists_body, hos]
  · simp [check_document_exists_body, hos]
  · simp [check_document_exists_body]

/-! ## Metadata store lemmas -/

theorem updateRowWith_filename (sig : FileSig) (cc now : Nat) (r : DocRow) :
    (updateRowWith sig cc now r).filename = r.filename := by
  unfold updateRowWith
  by_cases h : r.filename = sig.filename <;> simp [h]

theorem map_updateRowWith_filenames (db : List DocRow) (sig : FileSig)
    (cc now : Nat) :
    (db.map (updateRowWith sig cc now)).map (fun r => r.filename) =
      db.map (fun r => r.filename) := by
  induction db with
  | nil => rfl
  | cons r rest ih => simp [updateRowWith_filename, ih]

theorem countRows_eq_filter_names (db : List DocRow) (fn : String) :
    countRows db fn =
      ((db.map (fun r => r.filename)).filter
        (fun x => decide (x = fn))).length := by
  induction db with
  | nil => rfl
  | cons r rest ih =>
    by_cases h : r.filename = fn <;>
      simp [countRows, List.filter_cons, h] at ih ⊢ <;> omega

theorem update_document_record_present (db : List DocRow) (sig : FileSig)
    (cc now : Nat) (h : (lookupRow db sig.filename).isSome = true) :
    update_document_record db sig cc now =
      db.map (updateRowWith sig cc now) := by
  simp [update_document_record, h]

theorem update_document_record_absent (db : List DocRow) (sig : FileSig)
    (cc now : Nat) (h : lookupRow db sig.filename = none) :
    update_document_record db sig cc now = db ++ [mkRow sig cc now] := by
  simp [update_document_record, h]

theorem dbInv_update_document_record (db : List DocRow) (sig : FileSig)
    (cc now : Nat) (hinv : dbInv db) :
    dbInv (update_document_record db sig cc now) := by
  by_cases h : (lookupRow db sig.filename).isSome
  · rw [update_document_record_present db sig cc now h]
    unfold dbInv
    rw [map_updateRowWith_filenames]
    exact hinv
  · have hnone : lookupRow db sig.filename = none :=
      Option.not_isSome_iff_eq_none.mp h
    have habs : ∀ r ∈ db, r.filename ≠ sig.filename := by
      intro r hr
      have := List.find?_eq_none.mp hnone r hr
      simpa using this
    rw [update_document_record_absent db sig cc now hnone]
    unfold dbInv
    rw [List.map_append, List.nodup_append]
    refine ⟨hinv, List.nodup_singleton _, ?_⟩
    intro x hx hx2
    simp only [mkRow, List.map_cons, List.map_nil, List.mem_singleton] at hx2
    rcases List.mem_map.mp hx with ⟨r, hr, rfl⟩
    exact habs r hr hx2

theorem countRows_update_document_record (db : List DocRow) (sig : FileSig)
    (cc now : Nat) (hinv : dbInv db) :
    countRows (update_document_record db sig cc now) sig.filename = 1 := by
  by_cases h : (lookupRow db sig.filename).isSome
  · rcases Option.isSome_iff_exists.mp h with ⟨r, hr⟩
    have hrf : r.filename = sig.filename := by
      have := List.find?_some hr
      simpa using this
    have hfn : sig.filename ∈ db.map (fun r => r.filename) :=
      List.mem_map.mpr ⟨r, List.mem_of_find?_eq_some hr, hrf⟩
    rw [update_document_record_present db sig cc now h,
      countRows_eq_filter_names, map_updateRowWith_filenames]
    exact filter_eq_single_of_nodup _ _ hinv hfn
  · have hnone : lookupRow db sig.filename = none :=
      Option.not_isSome_iff_eq_none.mp h
    have habs : ∀ r ∈ db, ¬(r.filename = sig.filename) := by
      intro r hr
      have := List.find?_eq_none.mp hnone r hr
      simpa using this
    have hnil : db.filter (fun r => decide (r.filename = sig.filename)) = [] :=
      List.filter_eq_nil_iff.mpr (by
        intro r hr
        simpa using habs r hr)
    rw [update_document_record_absent db sig cc now hnone]
    simp [countRows, List.filter_append, hnil, List.filter_cons, mkRow]

theorem applyUpserts_append (db : List DocRow)
    (l1 l2 : List (FileSig × Nat × Nat)) :
    applyUpserts db (l1 ++ l2) = applyUpserts (applyUpserts db l1) l2 := by
  induction l1 generalizing db with
  | nil => rfl
  | cons c rest ih =>
    rcases c with ⟨sig, cc, now⟩
    simp only [List.cons_append, applyUpserts]
    exact ih _

theorem dbInv_applyUpserts (db : List DocRow)
    (calls : List (FileSig × Nat × Nat)) (hinv : dbInv db) :
    dbInv (applyUpserts db calls) := by
  induction calls generalizing db with
  | nil => exact hinv
  | cons c rest ih =>
    rcases c with ⟨sig, cc, now⟩
    exact ih _ (dbInv_update_document_record db sig cc now hinv)

/-- C8: starting from a store with unique filenames, after every call of
an upsert sequence there is exactly one row for the upserted filename
and the table still has no duplicate filename rows; a call inserts a
fresh row when the filename is absent and otherwise rewrites the
existing rows in place, setting `file_hash`, `chunk_count`,
`last_modified` and the current-instant `processed_time`. -/
theorem upsert_exactly_one_row (db : List DocRow)
    (calls : List (FileSig × Nat × Nat)) (hinv : dbInv db) (i : Nat)
    (hi : i < calls.length) :
    dbInv (applyUpserts db (calls.take (i + 1)))
    ∧ countRows (applyUpserts db (calls.take (i + 1)))
        (calls.get ⟨i, hi⟩).1.filename = 1
    ∧ (∀ (d : List DocRow) (sig : FileSig) (cc now : Nat),
        lookupRow d sig.filename = none →
        update_document_record d sig cc now = d ++ [mkRow sig cc now])
    ∧ (∀ (d : List DocRow) (sig : FileSig) (cc now : Nat),
        (lookupRow d sig.filename).isSome →
        update_document_record d sig cc now =
          d.map (updateRowWith sig cc now)) := by
  have htake : calls.take (i + 1) = calls.take i ++ [calls.get ⟨i, hi⟩] := by
    rw [List.take_succ]
    congr 1
    simp [List.getElem?_eq_getElem hi, List.get_eq_getElem]
  have hinv2 : dbInv (applyUpserts db (calls.take i)) :=
    dbInv_applyUpserts db _ hinv
  rcases hc : calls.get ⟨i, hi⟩ with ⟨sig, cc, now⟩
  refine ⟨?_, ?_, ?_, ?_⟩
  · exact dbInv_applyUpserts db _ hinv
  · rw [htake, hc, applyUpserts_append]
    simpa [applyUpserts] using
      countRows_update_document_record _ sig cc now hinv2
  · intro d s c n hnone
    simp [update_document_record, hnone]
  · intro d s c n hsome
    simp [update_document_record, hsome]

/-- Witness for C8 at a concrete store and call sequence. -/
theorem upsert_exactly_one_row_witness :
    dbInv ([] : List DocRow)
    ∧ (0 : Nat) < 1
    ∧ countRows
        (applyUpserts [] ([(FileSig.mk "a.txt" 7 3, 2, 5)].take 1))
        "a.txt" = 1 := by
  have h := upsert_exactly_one_row [] [(FileSig.mk "a.txt" 7 3, 2, 5)]
    (by simp [dbInv]) 0 (by decide)
  exact ⟨by simp [dbInv], by decide, h.2.1⟩

/-! ## Chunker lemmas -/

theorem lastBreakAux_bounds (sep window : List Char) (minPos : Nat) :
    ∀ (n p : Nat), lastBreakAux sep window minPos n = some p →
      minPos < p ∧ p ≤ n := by
  intro n
  induction n with
  | zero => intro p h; simp [lastBreakAux] at h
  | succ k ih =>
    intro p h
    rw [lastBreakAux] at h
    split at h
    · rename_i hcond
      cases h
      exact ⟨hcond.1, Nat.le_refl _⟩
    · have := ih p h
      exact ⟨this.1, Nat.le_succ_of_le this.2⟩

theorem chooseEnd_bounds (window : List Char) (minPos maxPos : Nat)
    (hlt : minPos < maxPos) (seps : List (List Char)) :
    minPos < chooseEnd seps window minPos maxPos
    ∧ chooseEnd seps window minPos maxPos ≤ maxPos := by
  induction seps with
  | nil => exact ⟨hlt, Nat.le_refl _⟩
  | cons s rest ih =>
    by_cases hs : s = []
    · simp only [chooseEnd, hs, if_true]
      exact ⟨hlt, Nat.le_refl _⟩
    · simp only [chooseEnd, hs, if_false]
      cases hb : lastBreakAux s window minPos maxPos with
      | none => simpa [hb] using ih
      | some p =>
        simpa [hb] using lastBreakAux_bounds s window minPos maxPos p hb

theorem slice_length (t : List Char) (a b : Nat) :
    (slice t a b).length = min (b - a) (t.length - a) := by
  simp [slice]

theorem slice_eq_drop (t : List Char) (a : Nat) :
    slice t a t.length = t.drop a := by
  unfold slice
  exact List.take_of_length_le (by simp)

/-- The invariant of the recursive splitting loop: with enough fuel and
a position strictly inside the text, the loop yields a nonempty chunk
sequence whose leading chunk exceeds the overlap whenever the remaining
text does, and removing the overlap prefix of every later chunk and
concatenating recovers the text from the current position on. -/
theorem splitRecAux_reconstruct (seps : List (List Char))
    (chunkSize chunkOverlap : Nat) (hOS : chunkOverlap < chunkSize)
    (text : List Char) :
    ∀ (fuel pos : Nat), pos < text.length → text.length ≤ pos + fuel →
      ∃ c cs, splitRecAux seps chunkSize chunkOverlap text fuel pos = c :: cs
        ∧ (chunkOverlap < text.length - pos → chunkOverlap < c.length)
        ∧ reconstructOverlap chunkOverlap
            (splitRecAux seps chunkSize chunkOverlap text fuel pos) =
            text.drop pos := by
  intro fuel
  induction fuel with
  | zero => intro pos h1 h2; omega
  | succ k ih =>
    intro pos hpos hfuel
    by_cases hfit : text.length ≤ pos + chunkSize
    · refine ⟨slice text pos text.length, [], by simp [splitRecAux, hfit],
        ?_, ?_⟩
      · intro hgap
        have hlen : (slice text pos text.length).length =
            text.length - pos := by
          rw [slice_length, Nat.min_self]
        omega
      · simp [splitRecAux, hfit, reconstructOverlap, slice_eq_drop]
    · have hficts : pos + chunkSize < text.length := by omega
      have hce := chooseEnd_bounds
        (slice text pos (pos + chunkSize)) chunkOverlap chunkSize hOS seps
      set c0 := chooseEnd seps (slice text pos (pos + chunkSize))
        chunkOverlap chunkSize with hc0
      have heb1 : pos + chunkOverlap < pos + c0 := by omega
      have heb2 : pos + c0 ≤ pos + chunkSize := by omega
      have hsplit : splitRecAux seps chunkSize chunkOverlap text (k + 1) pos
          = slice text pos (pos + c0) ::
            splitRecAux seps chunkSize chunkOverlap text k
              (pos + c0 - chunkOverlap) := by
        rw [splitRecAux]
        rw [if_neg (by omega)]
      have hrec := ih (pos + c0 - chunkOverlap) (by omega) (by omega)
      rcases hrec with ⟨c2, cs2, hr1, hr2, hr3⟩
      have hc2len : chunkOverlap < c2.length := hr2 (by omega)
      refine ⟨slice text pos (pos + c0), _, hsplit, ?_, ?_⟩
      · intro _
        have : (slice text pos (pos + c0)).length = min c0 (text.length - pos) := by
          rw [slice_length]
          congr 1
          omega
        omega
      · rw [hsplit, reconstructOverlap, hr1]
        rw [hr1, reconstructOverlap] at hr3
        have hdist : ((c2 :: cs2).map (List.drop chunkOverlap)).flatten =
            List.drop chunkOverlap
              (c2 ++ (cs2.map (List.drop chunkOverlap)).flatten) := by
          rw [List.map_cons, List.flatten_cons,
            List.drop_append_of_le_length (Nat.le_of_lt hc2len)]
        rw [hdist, hr3, List.drop_drop]
        have hsum : pos + c0 - chunkOverlap + chunkOverlap = pos + c0 := by
          omega
        rw [hsum]
        have hslice : slice text pos (pos + c0) =
            (text.drop pos).take (pos + c0 - pos) := rfl
        rw [hslice]
        have hstep : text.drop (pos + c0) =
            (text.drop pos).drop (pos + c0 - pos) := by
          rw [List.drop_drop]
          congr 1
          omega
        rw [hstep, List.take_append_drop]

/-- C4: for every text, chunk size and overlap with overlap smaller than
chunk size, splitting in recursive mode with the default separator list
(which ends in the empty-string fallback), removing the overlap prefix
from every chunk after the first and concatenating the chunks in
sequence order reproduces the text exactly; `split_text` accepts the
configuration and returns exactly these chunks. -/
theorem split_text_reconstruct (T : String) (chunkSize chunkOverlap : Nat)
    (hOS : chunkOverlap < chunkSize) :
    reconstructOverlap chunkOverlap
        (splitTextChars T.data chunkSize chunkOverlap defaultSeparators) =
      T.data
    ∧ split_text T chunkSize chunkOverlap defaultSeparators =
        .ok ((splitTextChars T.data chunkSize chunkOverlap
          defaultSeparators).map (fun cs => String.mk cs)) := by
  constructor
  · unfold splitTextChars
    by_cases hT : T.data = []
    · simp [hT, reconstructOverlap]
    · have hlen : 0 < T.data.length := List.length_pos.mpr hT
      rcases splitRecAux_reconstruct defaultSeparators chunkSize chunkOverlap
        hOS T.data T.data.length 0 hlen (by omega) with ⟨c, cs, h1, _, h3⟩
      simpa [hT] using h3
  · simp [split_text, Nat.not_le.mpr hOS]

/-- Witness for C4 at a concrete text, chunk size and overlap. -/
theorem split_text_reconstruct_witness :
    (1 : Nat) < 3
    ∧ reconstructOverlap 1 (splitTextChars "abcdef".data 3 1
        defaultSeparators) = "abcdef".data := by
  have h := split_text_reconstruct "abcdef" 3 1 (by decide)
  exact ⟨by decide, h.1⟩

/-! ## String and filename lemmas -/

theorem append_txt_inj (a b : String) (h : a ++ ".txt" = b ++ ".txt") :
    a = b := by
  have hd := congrArg String.data h
  rw [String.data_append, String.data_append] at hd
  exact congrArg String.mk (List.append_cancel_right hd)

theorem sig_filename_txt (hashFn : String → Nat) (f : PyFile)
    (he : f.ext = "txt") :
    (get_file_signature hashFn f).filename = f.stem ++ ".txt" := by
  show f.stem ++ "." ++ f.ext = f.stem ++ ".txt"
  rw [he]
  refine congrArg String.mk ?_
  simp [String.data_append]

theorem string_data_eq_nil (s : String) : s.data = [] ↔ s = "" := by
  constructor
  · intro h; exact congrArg String.mk h
  · intro h; rw [h]

/-! ## Directory lookup lemmas -/

theorem findTxt_props {files : List PyFile} {s : String} {f : PyFile}
    (h : findTxt files s = some f) :
    f ∈ files ∧ f.stem = s ∧ f.ext = "txt" := by
  have hp := List.find?_some h
  simp only [decide_eq_true_eq] at hp
  exact ⟨List.mem_of_find?_eq_some h, hp.1, hp.2⟩

theorem findTxt_isSome_of_mem (files : List PyFile) (f : PyFile)
    (hf : f ∈ files) (he : f.ext = "txt") :
    (findTxt files f.stem).isSome := by
  refine List.find?_isSome.mpr ⟨f, hf, ?_⟩
  simp [he]

theorem stems_inj (files : List PyFile) (hnd : stemsNodup files)
    (f g : PyFile) (hf : f ∈ files) (hg : g ∈ files) (hef : f.ext = "txt")
    (heg : g.ext = "txt") (hst : f.stem = g.stem) : f = g := by
  have hfm : f ∈ files.filter (fun f => decide (f.ext = "txt")) :=
    List.mem_filter.mpr ⟨hf, by simp [hef]⟩
  have hgm : g ∈ files.filter (fun f => decide (f.ext = "txt")) :=
    List.mem_filter.mpr ⟨hg, by simp [heg]⟩
  exact List.inj_on_of_nodup_map hnd hfm hgm hst

theorem findTxt_unique (files : List PyFile) (hnd : stemsNodup files)
    (f : PyFile) (hf : f ∈ files) (he : f.ext = "txt") :
    findTxt files f.stem = some f := by
  rcases Option.isSome_iff_exists.mp
      (findTxt_isSome_of_mem files f hf he) with ⟨g, hg⟩
  rcases findTxt_props hg with ⟨hgm, hgs, hge⟩
  have hfg : g = f := stems_inj files hnd g f hgm hf hge he (by rw [hgs])
  rw [hg, hfg]

/-! ## Metadata lookup frame lemmas -/

theorem lookupRow_map_preserve (g : DocRow → DocRow)
    (hg : ∀ r, (g r).filename = r.filename) (db : List DocRow)
    (fn : String) :
    lookupRow (db.map g) fn = (lookupRow db fn).map g := by
  induction db with
  | nil => rfl
  | cons r rest ih =>
    simp only [lookupRow, List.map_cons] at ih ⊢
    by_cases h : r.filename = fn
    · rw [List.find?_cons_of_pos _ (by simp [hg, h]),
        List.find?_cons_of_pos _ (by simp [h])]
      rfl
    · rw [List.find?_cons_of_neg _ (by simp [hg, h]),
        List.find?_cons_of_neg _ (by simp [h])]
      exact ih

theorem lookupRow_append (db1 db2 : List DocRow) (fn : String) :
    lookupRow (db1 ++ db2) fn = (lookupRow db1 fn).or (lookupRow db2 fn) := by
  simp [lookupRow, List.find?_append]

theorem lookupRow_update_other (db : List DocRow) (sig : FileSig)
    (cc now : Nat) (fn : String) (hne : fn ≠ sig.filename) :
    lookupRow (update_document_record db sig cc now) fn = lookupRow db fn := by
  by_cases h : (lookupRow db sig.filename).isSome
  · rw [update_document_record_present db sig cc now h,
      lookupRow_map_preserve _ (updateRowWith_filename sig cc now) db fn]
    cases hl : lookupRow db fn with
    | none => rfl
    | some r =>
      have hr : r.filename = fn := by
        have := List.find?_some hl
        simpa using this
      have : updateRowWith sig cc now r = r := by
        unfold updateRowWith
        rw [if_neg (by rw [hr]; exact hne)]
      simp [this]
  · have hnone : lookupRow db sig.filename = none :=
      Option.not_isSome_iff_eq_none.mp h
    rw [update_document_record_absent db sig cc now hnone, lookupRow_append]
    have hsingle : lookupRow [mkRow sig cc now] fn = none := by
      unfold lookupRow
      rw [List.find?_cons_of_neg _ (by
        simp only [mkRow, decide_eq_true_eq]
        intro hcontra
        exact hne hcontra.symm), List.find?_nil]
    rw [hsingle]
    cases lookupRow db fn <;> rfl

theorem lookupRow_update_self (db : List DocRow) (sig : FileSig)
    (cc now : Nat) :
    lookupRow (update_document_record db sig cc now) sig.filename =
      some (mkRow sig cc now) := by
  by_cases h : (lookupRow db sig.filename).isSome
  · rw [update_document_record_present db sig cc now h,
      lookupRow_map_preserve _ (updateRowWith_filename sig cc now) db
        sig.filename]
    rcases Option.isSome_iff_exists.mp h with ⟨r, hr⟩
    have hrf : r.filename = sig.filename := by
      have := List.find?_some hr
      simpa using this
    rw [hr]
    have : updateRowWith sig cc now r = mkRow sig cc now := by
      unfold updateRowWith mkRow
      rw [if_pos hrf, hrf]
    simp [this]
  · have hnone : lookupRow db sig.filename = none :=
      Option.not_isSome_iff_eq_none.mp h
    rw [update_document_record_absent db sig cc now hnone, lookupRow_append,
      hnone]
    simp [lookupRow, List.find?, mkRow]

theorem needs_eq_of_lookupRow_eq (hashFn : String → Nat)
    (db1 db0 : List DocRow) (f : PyFile)
    (h : lookupRow db1 (get_file_signature hashFn f).filename =
      lookupRow db0 (get_file_signature hashFn f).filename) :
    (needs_processing hashFn db1 f).1 = (needs_processing hashFn db0 f).1 := by
  cases hl : lookupRow db0 (get_file_signature hashFn f).filename with
  | none => simp [needs_processing, h.trans hl, hl]
  | some r => simp [needs_processing, h.trans hl, hl]

/-! ## Vectorize-and-store loop lemmas -/

theorem vas_db_frame (embedOk saveOk : String → Bool)
    (hashFn : String → Nat) (now : Nat) (files : List PyFile) :
    ∀ (groups : List (String × List Doc)) (db : List DocRow) (evs : List Ev)
      (fn : String), (∀ g ∈ groups, g.1 ++ ".txt" ≠ fn) →
      lookupRow (vectorizeAndStore embedOk saveOk hashFn now files groups db
        evs).db fn = lookupRow db fn := by
  intro groups
  induction groups with
  | nil => intro db evs fn _; rfl
  | cons g rest ih =>
    rcases g with ⟨s, docs⟩
    intro db evs fn hne
    have hs : s ++ ".txt" ≠ fn := hne (s, docs) (List.mem_cons_self _ _)
    cases hemb : embedOk s with
    | false => simp [vectorizeAndStore, hemb]
    | true =>
      cases hsv : saveOk s with
      | false => simp [vectorizeAndStore, hemb, hsv]
      | true =>
        cases hf : findTxt files s with
        | none => simp [vectorizeAndStore, hemb, hsv, hf]
        | some f =>
          rcases findTxt_props hf with ⟨hfm, hfs, hfe⟩
          have hsig : (get_file_signature hashFn f).filename =
              s ++ ".txt" := by
            rw [sig_filename_txt hashFn f hfe, hfs]
          simp only [vectorizeAndStore, hemb, if_true, hsv, hf]
          rw [ih _ _ fn (fun g hg => hne g (List.mem_cons_of_mem _ hg))]
          exact lookupRow_update_other _ _ _ _ fn
            (by rw [hsig]; exact fun hcontra => hs hcontra.symm)

theorem vas_events_mono (embedOk saveOk : String → Bool)
    (hashFn : String → Nat) (now : Nat) (files : List PyFile) :
    ∀ (groups : List (String × List Doc)) (db : List DocRow) (evs : List Ev)
      (e : Ev), e ∈ evs →
      e ∈ (vectorizeAndStore embedOk saveOk hashFn now files groups db
        evs).events := by
  intro groups
  induction groups with
  | nil => intro db evs e he; exact he
  | cons g rest ih =>
    rcases g with ⟨s, docs⟩
    intro db evs e he
    cases hemb : embedOk s with
    | false => simpa [vectorizeAndStore, hemb] using he
    | true =>
      cases hsv : saveOk s with
      | false =>
        simp only [vectorizeAndStore, hemb, if_true, hsv]
        exact List.mem_append_left _ he
      | true =>
        cases hf : findTxt files s with
        | none =>
          simp only [vectorizeAndStore, hemb, if_true, hsv, hf]
          exact List.mem_append_left _ (List.mem_append_left _ he)
        | some f =>
          simp only [vectorizeAndStore, hemb, if_true, hsv, hf]
          exact ih _ _ e (List.mem_append_left _
            (List.mem_append_left _ (List.mem_append_left _ he)))

theorem vas_upsert_after_save (embedOk saveOk : String → Bool)
    (hashFn : String → Nat) (now : Nat) (files : List PyFile) :
    ∀ (groups : List (String × List Doc)) (db : List DocRow) (evs : List Ev),
      (∀ fn, Ev.upsertEv fn ∈ evs →
        ∃ t, fn = t ++ ".txt" ∧ Ev.save t ∈ evs ∧ saveOk t = true) →
      ∀ fn, Ev.upsertEv fn ∈ (vectorizeAndStore embedOk saveOk hashFn now
          files groups db evs).events →
        ∃ t, fn = t ++ ".txt"
          ∧ Ev.save t ∈ (vectorizeAndStore embedOk saveOk hashFn now files
              groups db evs).events
          ∧ saveOk t = true := by
  intro groups
  induction groups with
  | nil => intro db evs hyp fn hin; exact hyp fn hin
  | cons g rest ih =>
    rcases g with ⟨s, docs⟩
    intro db evs hyp fn hin
    cases hemb : embedOk s with
    | false =>
      simp only [vectorizeAndStore, hemb] at hin ⊢
      exact hyp fn hin
    | true =>
      cases hsv : saveOk s with
      | false =>
        simp only [vectorizeAndStore, hemb, if_true, hsv] at hin ⊢
        rcases List.mem_append.mp hin with h | h
        · rcases hyp fn h with ⟨t, h1, h2, h3⟩
          exact ⟨t, h1, List.mem_append_left _ h2, h3⟩
        · simp at h
      | true =>
        cases hf : findTxt files s with
        | none =>
          simp only [vectorizeAndStore, hemb, if_true, hsv, hf] at hin ⊢
          rcases List.mem_append.mp hin with h | h
          · rcases List.mem_append.mp h with h2 | h2
            · rcases hyp fn h2 with ⟨t, ha, hb, hc⟩
              exact ⟨t, ha,
                List.mem_append_left _ (List.mem_append_left _ hb), hc⟩
            · simp at h2
          · simp at h
        | some f =>
          rcases findTxt_props hf with ⟨hfm, hfs, hfe⟩
          have hsig : (get_file_signature hashFn f).filename =
              s ++ ".txt" := by
            rw [sig_filename_txt hashFn f hfe, hfs]
          simp only [vectorizeAndStore, hemb, if_true, hsv, hf] at hin ⊢
          refine ih _ _ ?_ fn hin
          intro fn2 hin2
          rcases List.mem_append.mp hin2 with h | h
          · rcases List.mem_append.mp h with h2 | h2
            · rcases List.mem_append.mp h2 with h3 | h3
              · rcases hyp fn2 h3 with ⟨t, ha, hb, hc⟩
                exact ⟨t, ha, List.mem_append_left _
                  (List.mem_append_left _ (List.mem_append_left _ hb)), hc⟩
              · simp at h3
            · simp at h2
          · have hfn2 : fn2 = (get_file_signature hashFn f).filename := by
              simpa using h
            refine ⟨s, by rw [hfn2, hsig], ?_, hsv⟩
            exact List.mem_append_left _ (List.mem_append_right _ (by simp))

theorem vas_db_unchanged_of_save_fail (embedOk saveOk : String → Bool)
    (hashFn : String → Nat) (now : Nat) (files : List PyFile) (s : String)
    (hsave : saveOk s = false) :
    ∀ (groups : List (String × List Doc)) (db : List DocRow) (evs : List Ev),
      lookupRow (vectorizeAndStore embedOk saveOk hashFn now files groups db
        evs).db (s ++ ".txt") = lookupRow db (s ++ ".txt") := by
  intro groups
  induction groups with
  | nil => intro db evs; rfl
  | cons g rest ih =>
    rcases g with ⟨s0, docs⟩
    intro db evs
    cases hemb : embedOk s0 with
    | false => simp [vectorizeAndStore, hemb]
    | true =>
      cases hsv : saveOk s0 with
      | false => simp [vectorizeAndStore, hemb, hsv]
      | true =>
        have hs0 : s0 ≠ s := by
          intro hcontra
          rw [hcontra] at hsv
          rw [hsave] at hsv
          cases hsv
        cases hf : findTxt files s0 with
        | none => simp [vectorizeAndStore, hemb, hsv, hf]
        | some f =>
          rcases findTxt_props hf with ⟨hfm, hfs, hfe⟩
          have hsig : (get_file_signature hashFn f).filename =
              s0 ++ ".txt" := by
            rw [sig_filename_txt hashFn f hfe, hfs]
          simp only [vectorizeAndStore, hemb, if_true, hsv, hf]
          rw [ih _ _]
          refine lookupRow_update_other _ _ _ _ _ ?_
          rw [hsig]
          intro hcontra
          exact hs0 (append_txt_inj s s0 hcontra).symm

/-! ## Claim theorems: pipeline ordering and failure isolation -/

/-- C1: if persisting a source's index fails whenever attempted, no
metadata row is created or updated for that source's filename by the
run, and every metadata upsert the run performs belongs to a source
whose index save completed (the save event is in the trace and its
injected outcome is success). -/
theorem persist_before_commit (embedOk saveOk : String → Bool)
    (hashFn : String → Nat) (now chunkSize chunkOverlap : Nat)
    (files : List PyFile) (db : List DocRow) (s : String)
    (hsave : saveOk s = false) :
    lookupRow (processRun embedOk saveOk hashFn now chunkSize chunkOverlap
        files db).db (s ++ ".txt") = lookupRow db (s ++ ".txt")
    ∧ Ev.upsertEv (s ++ ".txt") ∉ (processRun embedOk saveOk hashFn now
        chunkSize chunkOverlap files db).events
    ∧ ∀ t, Ev.upsertEv (t ++ ".txt") ∈ (processRun embedOk saveOk hashFn now
          chunkSize chunkOverlap files db).events →
        Ev.save t ∈ (processRun embedOk saveOk hashFn now chunkSize
          chunkOverlap files db).events ∧ saveOk t = true := by
  by_cases h0 : get_doc_from_path files = []
  · refine ⟨by simp [processRun, h0], by simp [processRun, h0], ?_⟩
    intro t ht
    simp [processRun, h0] at ht
  · cases hfil : filterUnprocessed hashFn files db (get_doc_from_path files)
        with
    | error e =>
      refine ⟨by simp [processRun, h0, hfil], by simp [processRun, h0, hfil],
        ?_⟩
      intro t ht
      simp [processRun, h0, hfil] at ht
    | ok toProc =>
      by_cases h1 : toProc = []
      · refine ⟨by simp [processRun, h0, hfil, h1],
          by simp [processRun, h0, hfil, h1], ?_⟩
        intro t ht
        simp [processRun, h0, hfil, h1] at ht
      · cases hsp : split_documents chunkSize chunkOverlap toProc with
        | error e =>
          refine ⟨by simp [processRun, h0, hfil, h1, hsp],
            by simp [processRun, h0, hfil, h1, hsp], ?_⟩
          intro t ht
          simp [processRun, h0, hfil, h1, hsp] at ht
        | ok chunked =>
          have hrun : processRun embedOk saveOk hashFn now chunkSize
              chunkOverlap files db =
              vectorizeAndStore embedOk saveOk hashFn now files
                (groupBySource chunked) db
                [Ev.chunk (toProc.map (fun d => d.source))] := by
            simp [processRun, h0, hfil, h1, hsp]
          have hbase : ∀ fn, Ev.upsertEv fn ∈
              ([Ev.chunk (toProc.map (fun d => d.source))] : List Ev) →
              ∃ t, fn = t ++ ".txt"
                ∧ Ev.save t ∈
                  ([Ev.chunk (toProc.map (fun d => d.source))] : List Ev)
                ∧ saveOk t = true := by
            intro fn hfn
            simp at hfn
          have hafter := vas_upsert_after_save embedOk saveOk hashFn now files
            (groupBySource chunked) db
            [Ev.chunk (toProc.map (fun d => d.source))] hbase
          rw [hrun]
          refine ⟨vas_db_unchanged_of_save_fail embedOk saveOk hashFn now
            files s hsave _ db _, ?_, ?_⟩
          · intro hin
            rcases hafter _ hin with ⟨t, heq, _, hok⟩
            have : t = s := (append_txt_inj s t heq).symm
            rw [this] at hok
            rw [hsave] at hok
            cases hok
          · intro t hin
            rcases hafter _ hin with ⟨u, heq, hmem, hok⟩
            have : u = t := (append_txt_inj t u heq).symm
            rw [this] at hmem hok
            exact ⟨hmem, hok⟩

/-- Witness for C1 on a concrete run whose first source fails to
persist. -/
theorem persist_before_commit_witness :
    saveFailsOnA "a" = false
    ∧ lookupRow (processRun (fun _ => true) saveFailsOnA (fun c => c.length)
        9 1000 200 filesAB []).db ("a" ++ ".txt") =
      lookupRow [] ("a" ++ ".txt") := by
  have h := persist_before_commit (fun _ => true) saveFailsOnA
    (fun c => c.length) 9 1000 200 filesAB [] "a" (by decide)
  exact ⟨by decide, h.1⟩

/-- C2 counterexample: in the concrete run `runAB`, saving the index of
the first source `"a"` fails, and the remaining source `"b"` is not
processed at all — no save, no metadata row — while the run terminates
with the propagated error instead of a per-source failure report. -/
theorem run_aborts_counterexample :
    runAB.error = some (RunErr.saveFail "a")
    ∧ Ev.save "b" ∉ runAB.events
    ∧ Ev.upsertEv "b.txt" ∉ runAB.events
    ∧ lookupRow runAB.db "b.txt" = none := by decide

/-- C2 amended: when building, embedding or persisting the index for one
source group raises, the pipeline run aborts at that group: the loop
returns immediately with the propagated error, performing no work for
any remaining group. -/
theorem group_failure_aborts_run (embedOk saveOk : String → Bool)
    (hashFn : String → Nat) (now : Nat) (files : List PyFile) (s : String)
    (docs : List Doc) (rest : List (String × List Doc)) (db : List DocRow)
    (evs : List Ev) :
    (embedOk s = false →
      vectorizeAndStore embedOk saveOk hashFn now files ((s, docs) :: rest)
          db evs = ⟨db, evs, some (.embedFail s)⟩)
    ∧ (embedOk s = true → saveOk s = false →
      vectorizeAndStore embedOk saveOk hashFn now files ((s, docs) :: rest)
          db evs =
        ⟨db, evs ++ [Ev.embed (docs.map (fun d => d.page_content))],
          some (.saveFail s)⟩) := by
  constructor
  · intro h
    simp [vectorizeAndStore, h]
  · intro h1 h2
    simp [vectorizeAndStore, h1, h2]

/-- Witness for the amended C2 at a concrete failing group followed by
another group that the loop never reaches. -/
theorem group_failure_aborts_run_witness :
    ((fun _ : String => false) "x" = false)
    ∧ vectorizeAndStore (fun _ => false) (fun _ => true) (fun c => c.length)
        0 [] [("x", [Doc.mk "t" "x"]), ("y", [Doc.mk "u" "y"])] [] [] =
      ⟨[], [], some (.embedFail "x")⟩ := by
  have h := group_failure_aborts_run (fun _ => false) (fun _ => true)
    (fun c => c.length) 0 [] "x" [Doc.mk "t" "x"] [("y", [Doc.mk "u" "y"])]
    [] []
  exact ⟨rfl, h.1 rfl⟩

/-! ## Filtering and chunking lemmas -/

theorem filterUnprocessed_ok_eq (hashFn : String → Nat) (files : List PyFile)
    (db : List DocRow) :
    ∀ (docs toProc : List Doc),
      filterUnprocessed hashFn files db docs = .ok toProc →
      toProc = docs.filter (needsPred hashFn files db) := by
  intro docs
  induction docs with
  | nil =>
    intro toProc h
    simp only [filterUnprocessed] at h
    cases h
    rfl
  | cons d rest ih =>
    intro toProc h
    by_cases hsrc : d.source = ""
    · simp only [filterUnprocessed, hsrc, if_true] at h
      rw [List.filter_cons]
      have hpred : needsPred hashFn files db d = false := by
        simp [needsPred, hsrc]
      rw [hpred]
      simpa using ih toProc h
    · cases hf : findTxt files d.source with
      | none =>
        simp only [filterUnprocessed, hsrc, if_false, hf] at h
        cases h
      | some f =>
        simp only [filterUnprocessed, hsrc, if_false, hf] at h
        cases hrec : filterUnprocessed hashFn files db rest with
        | error e => rw [hrec] at h; cases h
        | ok tail =>
          rw [hrec] at h
          have htail := ih tail hrec
          rw [List.filter_cons]
          have hpred : needsPred hashFn files db d =
              (needs_processing hashFn db f).1 := by
            simp [needsPred, hsrc, hf]
          rw [hpred, ← htail]
          cases hn : (needs_processing hashFn db f).1 <;>
            rw [hn] at h <;> simpa using h.symm

theorem filterUnprocessed_found (hashFn : String → Nat) (files : List PyFile)
    (db : List DocRow) :
    ∀ (docs : List Doc),
      (∀ d ∈ docs, d.source ≠ "" → (findTxt files d.source).isSome) →
      ∃ l, filterUnprocessed hashFn files db docs = .ok l := by
  intro docs
  induction docs with
  | nil => intro _; exact ⟨[], rfl⟩
  | cons d rest ih =>
    intro hyp
    rcases ih (fun d2 hd2 => hyp d2 (List.mem_cons_of_mem _ hd2)) with ⟨l, hl⟩
    by_cases hsrc : d.source = ""
    · exact ⟨l, by simp [filterUnprocessed, hsrc, hl]⟩
    · rcases Option.isSome_iff_exists.mp
          (hyp d (List.mem_cons_self _ _) hsrc) with ⟨f, hf⟩
      refine ⟨if (needs_processing hashFn db f).1 then d :: l else l, ?_⟩
      simp [filterUnprocessed, hsrc, hf, hl]

theorem split_documents_ok (chunkSize chunkOverlap : Nat) (docs : List Doc)
    (h : chunkOverlap < chunkSize) :
    split_documents chunkSize chunkOverlap docs =
      .ok ((docs.map (fun d =>
        (splitTextChars d.page_content.data chunkSize chunkOverlap
            defaultSeparators).map
          (fun cs => Doc.mk (String.mk cs) d.source))).flatten) := by
  simp [split_documents, Nat.not_le.mpr h]

theorem chunk_source_mem (chunkSize chunkOverlap : Nat)
    (docs chunked : List Doc)
    (h : split_documents chunkSize chunkOverlap docs = .ok chunked) :
    ∀ c ∈ chunked, ∃ d ∈ docs, c.source = d.source := by
  unfold split_documents at h
  by_cases hc : chunkSize ≤ chunkOverlap
  · rw [if_pos hc] at h
    cases h
  · rw [if_neg hc] at h
    cases h
    intro c hc2
    rcases List.mem_flatten.mp hc2 with ⟨l, hl, hcl⟩
    rcases List.mem_map.mp hl with ⟨d, hd, rfl⟩
    rcases List.mem_map.mp hcl with ⟨cs, hcs, rfl⟩
    exact ⟨d, hd, rfl⟩

theorem splitRecAux_ne_nil (seps : List (List Char))
    (chunkSize chunkOverlap : Nat) (text : List Char) (fuel pos : Nat)
    (h : 0 < fuel) :
    splitRecAux seps chunkSize chunkOverlap text fuel pos ≠ [] := by
  cases fuel with
  | zero => omega
  | succ k =>
    rw [splitRecAux]
    by_cases hfit : text.length ≤ pos + chunkSize <;> simp [hfit]

theorem splitTextChars_ne_nil (text : List Char)
    (chunkSize chunkOverlap : Nat) (seps : List (List Char))
    (htext : text ≠ []) :
    splitTextChars text chunkSize chunkOverlap seps ≠ [] := by
  unfold splitTextChars
  rw [if_neg htext]
  exact splitRecAux_ne_nil _ _ _ _ _ _ (List.length_pos.mpr htext)

theorem doc_chunk_exists (chunkSize chunkOverlap : Nat)
    (docs chunked : List Doc)
    (h : split_documents chunkSize chunkOverlap docs = .ok chunked)
    (d : Doc) (hd : d ∈ docs) (hne : d.page_content ≠ "") :
    ∃ c ∈ chunked, c.source = d.source := by
  unfold split_documents at h
  by_cases hc : chunkSize ≤ chunkOverlap
  · rw [if_pos hc] at h
    cases h
  · rw [if_neg hc] at h
    cases h
    have hdata : d.page_content.data ≠ [] := by
      intro hcontra
      exact hne ((string_data_eq_nil d.page_content).mp hcontra)
    rcases List.exists_mem_of_ne_nil _
        (splitTextChars_ne_nil d.page_content.data chunkSize chunkOverlap
          defaultSeparators hdata) with ⟨cs, hcs⟩
    refine ⟨Doc.mk (String.mk cs) d.source, ?_, rfl⟩
    refine List.mem_flatten.mpr ⟨_, List.mem_map.mpr ⟨d, hd, rfl⟩, ?_⟩
    exact List.mem_map.mpr ⟨cs, hcs, rfl⟩

theorem split_documents_empty_chunks (chunkSize chunkOverlap : Nat)
    (docs : List Doc) (hOS : chunkOverlap < chunkSize)
    (hall : ∀ d ∈ docs, d.page_content = "") :
    split_documents chunkSize chunkOverlap docs = .ok [] := by
  rw [split_documents_ok chunkSize chunkOverlap docs hOS]
  congr 1
  rw [List.flatten_eq_nil_iff]
  intro l hl
  rcases List.mem_map.mp hl with ⟨d, hd, rfl⟩
  have : d.page_content.data = [] :=
    (string_data_eq_nil d.page_content).mpr (hall d hd)
  simp [splitTextChars, this]

/-! ## Grouping lemmas -/

theorem addDoc_key_preserved (acc : List (String × List Doc)) (d : Doc)
    (k : String) (h : ∃ ds, (k, ds) ∈ acc) :
    ∃ ds, (k, ds) ∈ addDoc acc d := by
  rcases h with ⟨ds, hds⟩
  unfold addDoc
  by_cases hany : acc.any (fun p => decide (p.1 = d.source)) = true
  · rw [if_pos hany]
    by_cases hk : k = d.source
    · exact ⟨ds ++ [d], List.mem_map.mpr ⟨(k, ds), hds, by simp [hk]⟩⟩
    · exact ⟨ds, List.mem_map.mpr ⟨(k, ds), hds, by simp [hk]⟩⟩
  · rw [if_neg hany]
    exact ⟨ds, List.mem_append_left _ hds⟩

theorem addDoc_mem_self (acc : List (String × List Doc)) (d : Doc) :
    ∃ ds, (d.source, ds) ∈ addDoc acc d := by
  unfold addDoc
  by_cases hany : acc.any (fun p => decide (p.1 = d.source)) = true
  · rcases List.any_eq_true.mp hany with ⟨p, hp, hps⟩
    simp only [decide_eq_true_eq] at hps
    rw [if_pos hany]
    exact ⟨p.2 ++ [d], List.mem_map.mpr ⟨p, hp, by simp [hps]⟩⟩
  · rw [if_neg hany]
    exact ⟨[d], List.mem_append_right _ (by simp)⟩

theorem foldl_addDoc_key_preserved (docs : List Doc) :
    ∀ (acc : List (String × List Doc)) (k : String),
      (∃ ds, (k, ds) ∈ acc) →
      ∃ ds, (k, ds) ∈ docs.foldl addDoc acc := by
  induction docs with
  | nil => intro acc k h; exact h
  | cons d rest ih =>
    intro acc k h
    exact ih (addDoc acc d) k (addDoc_key_preserved acc d k h)

theorem foldl_addDoc_mem (docs : List Doc) :
    ∀ (acc : List (String × List Doc)) (c : Doc), c ∈ docs →
      ∃ ds, (c.source, ds) ∈ docs.foldl addDoc acc := by
  induction docs with
  | nil => intro acc c hc; simp at hc
  | cons d rest ih =>
    intro acc c hc
    rcases List.mem_cons.mp hc with rfl | hc2
    · exact foldl_addDoc_key_preserved rest (addDoc acc c) c.source
        (addDoc_mem_self acc c)
    · exact ih (addDoc acc d) c hc2

theorem groupBySource_mem (docs : List Doc) (c : Doc) (hc : c ∈ docs) :
    ∃ ds, (c.source, ds) ∈ groupBySource docs :=
  foldl_addDoc_mem docs [] c hc

theorem addDoc_keys_nodup (acc : List (String × List Doc)) (d : Doc)
    (h : (acc.map (fun p => p.1)).Nodup) :
    ((addDoc acc d).map (fun p => p.1)).Nodup := by
  unfold addDoc
  by_cases hany : acc.any (fun p => decide (p.1 = d.source)) = true
  · rw [if_pos hany]
    have hkeys : (acc.map
        (fun p => if p.1 = d.source then (p.1, p.2 ++ [d]) else p)).map
          (fun p => p.1) = acc.map (fun p => p.1) := by
      rw [List.map_map]
      refine List.map_congr_left ?_
      intro p _
      by_cases hp : p.1 = d.source <;> simp [hp]
    rw [hkeys]
    exact h
  · rw [if_neg hany, List.map_append, List.nodup_append]
    refine ⟨h, List.nodup_singleton _, ?_⟩
    intro x hx hx2
    simp only [List.map_cons, List.map_nil, List.mem_singleton] at hx2
    rcases List.mem_map.mp hx with ⟨p, hp, hps⟩
    exact hany (List.any_eq_true.mpr ⟨p, hp, by simp [hps, hx2]⟩)

theorem foldl_addDoc_keys_nodup (docs : List Doc) :
    ∀ (acc : List (String × List Doc)),
      ((acc.map (fun p => p.1)).Nodup) →
      (((docs.foldl addDoc acc).map (fun p => p.1)).Nodup) := by
  induction docs with
  | nil => intro acc h; exact h
  | cons d rest ih => intro acc h; exact ih _ (addDoc_keys_nodup acc d h)

theorem groupBySource_keys_nodup (docs : List Doc) :
    ((groupBySource docs).map (fun p => p.1)).Nodup :=
  foldl_addDoc_keys_nodup docs [] (by simp)

theorem addDoc_key_from (acc : List (String × List Doc)) (d : Doc)
    (k : String) (h : ∃ ds, (k, ds) ∈ addDoc acc d) :
    (∃ ds, (k, ds) ∈ acc) ∨ k = d.source := by
  rcases h with ⟨ds, hds⟩
  unfold addDoc at hds
  by_cases hany : acc.any (fun p => decide (p.1 = d.source)) = true
  · rw [if_pos hany] at hds
    rcases List.mem_map.mp hds with ⟨q, hq, hqe⟩
    by_cases hq1 : q.1 = d.source
    · rw [if_pos hq1] at hqe
      have hk : q.1 = k := congrArg Prod.fst hqe
      exact Or.inl ⟨q.2, by rw [← hk]; exact hq⟩
    · rw [if_neg hq1] at hqe
      exact Or.inl ⟨ds, hqe ▸ hq⟩
  · rw [if_neg hany] at hds
    rcases List.mem_append.mp hds with h2 | h2
    · exact Or.inl ⟨ds, h2⟩
    · simp only [List.mem_singleton, Prod.mk.injEq] at h2
      exact Or.inr h2.1

theorem foldl_addDoc_key_from (docs : List Doc) :
    ∀ (acc : List (String × List Doc)) (k : String),
      (∃ ds, (k, ds) ∈ docs.foldl addDoc acc) →
      (∃ ds, (k, ds) ∈ acc) ∨ ∃ c ∈ docs, c.source = k := by
  induction docs with
  | nil => intro acc k h; exact Or.inl h
  | cons d rest ih =>
    intro acc k h
    rcases ih (addDoc acc d) k h with h2 | h2
    · rcases addDoc_key_from acc d k h2 with h3 | h3
      · exact Or.inl h3
      · exact Or.inr ⟨d, List.mem_cons_self _ _, h3.symm⟩
    · rcases h2 with ⟨c, hc, hcs⟩
      exact Or.inr ⟨c, List.mem_cons_of_mem _ hc, hcs⟩

theorem groupBySource_key_from (docs : List Doc) (k : String)
    (h : ∃ ds, (k, ds) ∈ groupBySource docs) :
    ∃ c ∈ docs, c.source = k := by
  rcases foldl_addDoc_key_from docs [] k h with h2 | h2
  · rcases h2 with ⟨ds, hds⟩
    simp at hds
  · exact h2

/-! ## Commit lemma for the vectorize-and-store loop -/

theorem vas_commit (embedOk saveOk : String → Bool) (hashFn : String → Nat)
    (now : Nat) (files : List PyFile) :
    ∀ (groups : List (String × List Doc)) (db : List DocRow) (evs : List Ev),
      ((groups.map (fun g => g.1)).Nodup) →
      (vectorizeAndStore embedOk saveOk hashFn now files groups db
        evs).error = none →
      ∀ (s : String) (ds : List Doc), (s, ds) ∈ groups →
        ∀ f, findTxt files s = some f →
        lookupRow (vectorizeAndStore embedOk saveOk hashFn now files groups
            db evs).db (s ++ ".txt") =
          some ⟨s ++ ".txt", hashFn f.content, ds.length, f.mtime, now⟩ := by
  intro groups
  induction groups with
  | nil =>
    intro db evs _ _ s ds hmem
    simp at hmem
  | cons g rest ih =>
    rcases g with ⟨s0, ds0⟩
    intro db evs hnd herr s ds hmem f hf
    cases hemb : embedOk s0 with
    | false => simp [vectorizeAndStore, hemb] at herr
    | true =>
      cases hsv : saveOk s0 with
      | false => simp [vectorizeAndStore, hemb, hsv] at herr
      | true =>
        cases hf0 : findTxt files s0 with
        | none => simp [vectorizeAndStore, hemb, hsv, hf0] at herr
        | some f0 =>
          rcases findTxt_props hf0 with ⟨hm0, hstem0, hext0⟩
          have hsig0 : (get_file_signature hashFn f0).filename =
              s0 ++ ".txt" := by
            rw [sig_filename_txt hashFn f0 hext0, hstem0]
          have hndrest : ((rest.map (fun g => g.1)).Nodup) :=
            (List.nodup_cons.mp (by simpa using hnd)).2
          have hs0rest : s0 ∉ rest.map (fun g => g.1) :=
            (List.nodup_cons.mp (by simpa using hnd)).1
          simp only [vectorizeAndStore, hemb, if_true, hsv, hf0] at herr ⊢
          rcases List.mem_cons.mp hmem with heq | hmem2
          · have hseq : s = s0 := congrArg Prod.fst heq
            have hdseq : ds = ds0 := congrArg Prod.snd heq
            subst hseq
            subst hdseq
            have hff0 : f = f0 := by
              rw [hf] at hf0
              exact Option.some.inj hf0
            subst hff0
            rw [vas_db_frame embedOk saveOk hashFn now files rest _ _
              (s ++ ".txt") ?hframe]
            case hframe =>
              intro g hg hcontra
              exact hs0rest (List.mem_map.mpr
                ⟨g, hg, append_txt_inj g.1 s hcontra⟩)
            rw [← hsig0, lookupRow_update_self]
            unfold mkRow
            rw [hsig0]
            rfl
          · exact ih _ _ hndrest herr s ds hmem2 f hf

/-! ## Idempotence lemmas -/

theorem run_detector_false (embedOk saveOk : String → Bool)
    (hashFn : String → Nat) (now1 chunkSize chunkOverlap : Nat)
    (files : List PyFile) (db0 : List DocRow)
    (hnd : stemsNodup files) (hOS : chunkOverlap < chunkSize)
    (h1 : (processRun embedOk saveOk hashFn now1 chunkSize chunkOverlap files
      db0).error = none)
    (f : PyFile) (hf : f ∈ files) (hext : f.ext = "txt")
    (hread : f.readable = true) (hstem : f.stem ≠ "")
    (hcontent : f.content ≠ "") :
    (needs_processing hashFn (processRun embedOk saveOk hashFn now1 chunkSize
      chunkOverlap files db0).db f).1 = false := by
  have hsigfn : (get_file_signature hashFn f).filename = f.stem ++ ".txt" :=
    sig_filename_txt hashFn f hext
  have hdmem : mkDoc f ∈ get_doc_from_path files :=
    (get_doc_from_path_mem files (mkDoc f)).mpr ⟨f, hf, hext, hread, rfl⟩
  have hfind : findTxt files f.stem = some f :=
    findTxt_unique files hnd f hf hext
  by_cases h0 : get_doc_from_path files = []
  · rw [h0] at hdmem
    simp at hdmem
  · cases hfil : filterUnprocessed hashFn files db0 (get_doc_from_path files)
        with
    | error e =>
      have herr : (processRun embedOk saveOk hashFn now1 chunkSize
          chunkOverlap files db0).error = some e := by
        simp [processRun, h0, hfil]
      rw [herr] at h1
      cases h1
    | ok toProc =>
      have htpeq := filterUnprocessed_ok_eq hashFn files db0 _ toProc hfil
      by_cases htp : toProc = []
      · have hdbeq : (processRun embedOk saveOk hashFn now1 chunkSize
            chunkOverlap files db0).db = db0 := by
          simp [processRun, h0, hfil, htp]
        have hnil : (get_doc_from_path files).filter
            (needsPred hashFn files db0) = [] := by
          rw [← htpeq]
          exact htp
        have hall := List.filter_eq_nil_iff.mp hnil
        have hprednot : needsPred hashFn files db0 (mkDoc f) = false := by
          cases hx : needsPred hashFn files db0 (mkDoc f)
          · rfl
          · exact absurd hx (hall _ hdmem)
        rw [hdbeq]
        simpa [needsPred, mkDoc, hstem, hfind] using hprednot
      · cases hsp : split_documents chunkSize chunkOverlap toProc with
        | error e =>
          rw [split_documents_ok chunkSize chunkOverlap toProc hOS] at hsp
          cases hsp
        | ok chunked =>
          have heqrun : processRun embedOk saveOk hashFn now1 chunkSize
              chunkOverlap files db0
              = vectorizeAndStore embedOk saveOk hashFn now1 files
                  (groupBySource chunked) db0
                  [Ev.chunk (toProc.map (fun d => d.source))] := by
            simp [processRun, h0, hfil, htp, hsp]
          rw [heqrun] at h1 ⊢
          by_cases hneed : (needs_processing hashFn db0 f).1 = true
          · have hdproc : mkDoc f ∈ toProc := by
              rw [htpeq]
              refine List.mem_filter.mpr ⟨hdmem, ?_⟩
              simp [needsPred, mkDoc, hstem, hfind, hneed]
            rcases doc_chunk_exists chunkSize chunkOverlap toProc chunked hsp
                (mkDoc f) hdproc hcontent with ⟨c, hc, hcs⟩
            rcases groupBySource_mem chunked c hc with ⟨ds, hds⟩
            rw [hcs] at hds
            have hlook := vas_commit embedOk saveOk hashFn now1 files
              (groupBySource chunked) db0 _ (groupBySource_keys_nodup chunked)
              h1 f.stem ds hds f hfind
            simp only [needs_processing, hsigfn, hlook]
            have e1 : (get_file_signature hashFn f).hash =
                hashFn f.content := rfl
            have e2 : (get_file_signature hashFn f).last_modified =
                f.mtime := rfl
            simp [e1, e2]
          · have hneedf : (needs_processing hashFn db0 f).1 = false := by
              cases hx : (needs_processing hashFn db0 f).1
              · rfl
              · exact absurd hx hneed
            have hkeys : ∀ g ∈ groupBySource chunked,
                g.1 ++ ".txt" ≠ f.stem ++ ".txt" := by
              intro g hg hcontra
              have hgs : g.1 = f.stem := append_txt_inj g.1 f.stem hcontra
              rcases groupBySource_key_from chunked g.1 ⟨g.2, hg⟩ with
                ⟨c, hc, hcs⟩
              rcases chunk_source_mem chunkSize chunkOverlap toProc chunked
                  hsp c hc with ⟨d2, hd2, hcd2⟩
              have hd2src : d2.source = f.stem := by
                rw [← hcd2, hcs, hgs]
              rw [htpeq] at hd2
              have hd2all := (List.mem_filter.mp hd2).1
              have hd2pred := (List.mem_filter.mp hd2).2
              rcases (get_doc_from_path_mem files d2).mp hd2all with
                ⟨f2, hf2, hext2, hread2, rfl⟩
              have hf2f : f2 = f :=
                stems_inj files hnd f2 f hf2 hf hext2 hext hd2src
              subst hf2f
              simp [needsPred, mkDoc, hstem, hfind] at hd2pred
              exact hneed hd2pred
            have hframe := vas_db_frame embedOk saveOk hashFn now1 files
              (groupBySource chunked) db0
              [Ev.chunk (toProc.map (fun d => d.source))]
              (f.stem ++ ".txt") hkeys
            rw [needs_eq_of_lookupRow_eq hashFn _ db0 f
              (by rw [hsigfn]; exact hframe)]
            exact hneedf

theorem run_on_clean_db_noop (embedOk2 saveOk2 : String → Bool)
    (hashFn : String → Nat) (now2 chunkSize chunkOverlap : Nat)
    (files : List PyFile) (D1 : List DocRow)
    (hnd : stemsNodup files) (hOS : chunkOverlap < chunkSize)
    (hclean : ∀ f ∈ files, f.ext = "txt" → f.readable = true →
      f.stem ≠ "" → f.content ≠ "" →
      (needs_processing hashFn D1 f).1 = false) :
    (processRun embedOk2 saveOk2 hashFn now2 chunkSize chunkOverlap files
      D1).db = D1
    ∧ (processRun embedOk2 saveOk2 hashFn now2 chunkSize chunkOverlap files
      D1).error = none
    ∧ ∀ e ∈ (processRun embedOk2 saveOk2 hashFn now2 chunkSize chunkOverlap
        files D1).events, ∃ srcs, e = Ev.chunk srcs := by
  by_cases h0 : get_doc_from_path files = []
  · refine ⟨by simp [processRun, h0], by simp [processRun, h0], ?_⟩
    intro e he
    simp [processRun, h0] at he
  · have hfound : ∀ d ∈ get_doc_from_path files, d.source ≠ "" →
        (findTxt files d.source).isSome := by
      intro d hd _
      rcases (get_doc_from_path_mem files d).mp hd with
        ⟨f2, hf2, hext2, hread2, rfl⟩
      exact findTxt_isSome_of_mem files f2 hf2 hext2
    rcases filterUnprocessed_found hashFn files D1 _ hfound with
      ⟨toProc2, hfil2⟩
    have htpeq := filterUnprocessed_ok_eq hashFn files D1 _ toProc2 hfil2
    have hempty : ∀ d ∈ toProc2, d.page_content = "" := by
      intro d hd
      rw [htpeq] at hd
      have hdall := (List.mem_filter.mp hd).1
      have hdpred := (List.mem_filter.mp hd).2
      rcases (get_doc_from_path_mem files d).mp hdall with
        ⟨f2, hf2, hext2, hread2, rfl⟩
      by_contra hcon
      have hc2 : f2.content ≠ "" := hcon
      have hs2 : f2.stem ≠ "" := by
        intro hcontra
        simp [needsPred, mkDoc, hcontra] at hdpred
      have hfind2 : findTxt files f2.stem = some f2 :=
        findTxt_unique files hnd f2 hf2 hext2
      have hneedf2 := hclean f2 hf2 hext2 hread2 hs2 hc2
      simp [needsPred, mkDoc, hfind2, hneedf2] at hdpred
    by_cases htp2 : toProc2 = []
    · refine ⟨by simp [processRun, h0, hfil2, htp2],
        by simp [processRun, h0, hfil2, htp2], ?_⟩
      intro e he
      simp [processRun, h0, hfil2, htp2] at he
    · have hsp2 : split_documents chunkSize chunkOverlap toProc2 = .ok [] :=
        split_documents_empty_chunks chunkSize chunkOverlap toProc2 hOS hempty
      have heqrun : processRun embedOk2 saveOk2 hashFn now2 chunkSize
          chunkOverlap files D1 =
          ⟨D1, [Ev.chunk (toProc2.map (fun d => d.source))], none⟩ := by
        simp [processRun, h0, hfil2, htp2, hsp2, groupBySource,
          vectorizeAndStore]
      refine ⟨by rw [heqrun], by rw [heqrun], ?_⟩
      intro e he
      rw [heqrun] at he
      simp only [List.mem_singleton] at he
      exact ⟨_, he⟩

/-! ## Claim theorems: idempotence of the second run -/

/-- C7 counterexample: over a document set containing one empty `.txt`
file, the first run succeeds but creates no metadata row (an empty file
yields zero chunks, so its source group never exists), and the
immediately repeated run chunks the document again and the change
detector still returns `true` for it — contradicting the claim that the
second run performs no chunking and gets `false` from the change
detector for every document of a successfully processed set. -/
theorem rerun_rechunks_empty_doc :
    runEmpty1.error = none
    ∧ Ev.chunk ["rfc1"] ∈ runEmpty2.events
    ∧ (needs_processing (fun c => c.length) runEmpty1.db
        (PyFile.mk "rfc1" "txt" "" 5 true)).1 = true := by decide

/-- C7 amended: after a completed run over a directory whose `.txt`
stems are distinct, the change detector returns `false` for every
readable `.txt` file with a truthy stem and nonempty content, and an
immediately repeated run (under any provider outcomes) performs no
embedding call, no index save and no metadata upsert, leaves every
stored row — including `processed_time` — unchanged, and completes
without error; only documents that yielded zero chunks (empty files) are
picked up and re-chunked again. -/
theorem rerun_noop (embedOk saveOk embedOk2 saveOk2 : String → Bool)
    (hashFn : String → Nat) (now1 now2 chunkSize chunkOverlap : Nat)
    (files : List PyFile) (db0 : List DocRow) (run1 run2 : RunOut)
    (hnd : stemsNodup files) (hOS : chunkOverlap < chunkSize)
    (hrun1 : run1 = processRun embedOk saveOk hashFn now1 chunkSize
      chunkOverlap files db0)
    (h1 : run1.error = none)
    (hrun2 : run2 = processRun embedOk2 saveOk2 hashFn now2 chunkSize
      chunkOverlap files run1.db) :
    (∀ f ∈ files, f.ext = "txt" → f.readable = true → f.stem ≠ "" →
      f.content ≠ "" → (needs_processing hashFn run1.db f).1 = false)
    ∧ run2.db = run1.db
    ∧ run2.error = none
    ∧ (∀ ts, Ev.embed ts ∉ run2.events)
    ∧ (∀ t, Ev.save t ∉ run2.events)
    ∧ (∀ fn, Ev.upsertEv fn ∉ run2.events) := by
  subst hrun2
  subst hrun1
  have hA : ∀ f ∈ files, f.ext = "txt" → f.readable = true → f.stem ≠ "" →
      f.content ≠ "" →
      (needs_processing hashFn (processRun embedOk saveOk hashFn now1
        chunkSize chunkOverlap files db0).db f).1 = false :=
    fun f hf he hr hs hc =>
      run_detector_false embedOk saveOk hashFn now1 chunkSize chunkOverlap
        files db0 hnd hOS h1 f hf he hr hs hc
  have hB := run_on_clean_db_noop embedOk2 saveOk2 hashFn now2 chunkSize
    chunkOverlap files _ hnd hOS hA
  refine ⟨hA, hB.1, hB.2.1, ?_, ?_, ?_⟩
  · intro ts hin
    rcases hB.2.2 _ hin with ⟨srcs, h⟩
    cases h
  · intro t hin
    rcases hB.2.2 _ hin with ⟨srcs, h⟩
    cases h
  · intro fn hin
    rcases hB.2.2 _ hin with ⟨srcs, h⟩
    cases h

/-- Witness for the amended C7 on a concrete two-document run repeated
once. -/
theorem rerun_noop_witness :
    stemsNodup filesAB
    ∧ (200 : Nat) < 1000
    ∧ (processRun (fun _ => true) (fun _ => true) (fun c => c.length) 3 1000
        200 filesAB []).error = none
    ∧ (processRun (fun _ => true) (fun _ => true) (fun c => c.length) 4 1000
        200 filesAB
        (processRun (fun _ => true) (fun _ => true) (fun c => c.length) 3
          1000 200 filesAB []).db).db =
      (processRun (fun _ => true) (fun _ => true) (fun c => c.length) 3 1000
        200 filesAB []).db := by
  have h := rerun_noop (fun _ => true) (fun _ => true) (fun _ => true)
    (fun _ => true) (fun c => c.length) 3 4 1000 200 filesAB []
    (processRun (fun _ => true) (fun _ => true) (fun c => c.length) 3 1000
      200 filesAB [])
    (processRun (fun _ => true) (fun _ => true) (fun c => c.length) 4 1000
      200 filesAB
      (processRun (fun _ => true) (fun _ => true) (fun c => c.length) 3 1000
        200 filesAB []).db)
    (by unfold stemsNodup; decide) (by decide) rfl (by decide) rfl
  exact ⟨by unfold stemsNodup; decide, by decide, by decide, h.2.1⟩

end RFCAgent
